import Mathlib

/-!
Shallow embedding of the inequalipy repository (Kolm-Pollak, Atkinson and
Gini inequality measures) over the real numbers, together with proofs of
the spec claims.  Python floats are modelled as real numbers; a Python
exception raised by a function is modelled by an `Except` error value,
and a silent non-finite numpy result (NaN/Inf arising from a zero
denominator, which numpy produces with only a warning) is modelled by
`Option.none` in the Gini engine.
-/

open Real List

/-- Errors raised by the Python source.  `missingParameterError` models the
`raise TypeError("you must provide either a epsilon or kappa aversion
parameter")` in `kolmpollak.py` (the spec's error taxonomy calls this
failure `MissingParameterError`); `zeroDivisionError` models Python's
`ZeroDivisionError` from scalar division by zero (e.g. `1 / (1 - epsilon)`
at `epsilon = 1` in `atkinson.py`, or numpy's explicit raise in
`np.average` when the weights sum to zero; the spec taxonomy calls these
`DegenerateParameterError`). -/
inductive PyErr where
  | missingParameterError : PyErr
  | zeroDivisionError : PyErr
deriving DecidableEq

/-- Model of `np.mean(a)`: the arithmetic mean `sum / len`.  (On an empty
list numpy yields NaN with a warning; here real division by zero gives the
junk value `0`; all theorems below assume a non-empty list.) -/
noncomputable def npMean (a : List ℝ) : ℝ := a.sum / (a.length : ℝ)

/-- Model of `np.average(a, weights=weights)`: the weighted mean
`(Σ wᵢ·aᵢ) / Σ wᵢ` when weights are given, `np.mean` otherwise. -/
noncomputable def npAverage (a : List ℝ) (w : Option (List ℝ)) : ℝ :=
  match w with
  | none => npMean a
  | some ws => ((a.zip ws).map (fun p => p.1 * p.2)).sum / ws.sum

/-- Model of `calc_kappa` from `inequipy/kolmpollak.py` (lines 107-113):
`epsilon * (x_sum / x_sq_sum)` with `x_sum = Σ wᵢ·aᵢ` and
`x_sq_sum = Σ wᵢ·aᵢ²` (weights of one when absent). -/
noncomputable def calc_kappa (a : List ℝ) (epsilon : ℝ) (w : Option (List ℝ)) : ℝ :=
  match w with
  | none => epsilon * (a.sum / (a.map (fun x => x ^ 2)).sum)
  | some ws =>
      epsilon * (((a.zip ws).map (fun p => p.1 * p.2)).sum /
        ((a.zip ws).map (fun p => p.1 ^ 2 * p.2)).sum)

/-- The arithmetic of `ede` in `inequipy/kolmpollak.py` (lines 37-43) once a
kappa value is at hand: `(-1 / kappa) * log(ede_sum / N)` with
`ede_sum = Σ wᵢ·exp(aᵢ·(-kappa))` and `N = Σ wᵢ` (respectively
`Σ exp(aᵢ·(-kappa))` and `N = len a` when weights are absent).  At
`kappa = 0` real division by zero yields junk (Python raises only for an
exact scalar zero); every claim below assumes `kappa ≠ 0`. -/
noncomputable def kpEdeVal (kappa : ℝ) (a : List ℝ) (w : Option (List ℝ)) : ℝ :=
  match w with
  | none =>
      (-1 / kappa) * Real.log ((a.map (fun x => Real.exp (x * -kappa))).sum / (a.length : ℝ))
  | some ws =>
      (-1 / kappa) * Real.log
        (((a.zip ws).map (fun p => Real.exp (p.1 * -kappa) * p.2)).sum / ws.sum)

/-- Model of `ede` from `inequipy/kolmpollak.py` (lines 32-43): raises if
both `epsilon` and `kappa` are `None`; derives `kappa` through
`calc_kappa` when only `epsilon` is given; otherwise uses the given
`kappa` (ignoring `epsilon`, as the source only computes it when `kappa
is None`). -/
noncomputable def kpEde (a : List ℝ) (epsilon kappa : Option ℝ) (w : Option (List ℝ)) :
    Except PyErr ℝ :=
  match kappa, epsilon with
  | none, none => .error .missingParameterError
  | none, some e => .ok (kpEdeVal (calc_kappa a e w) a w)
  | some k, _ => .ok (kpEdeVal k a w)

/-- Model of `index` from `inequipy/kolmpollak.py` (lines 75-80): subtracts
the (weighted) mean from every value and takes the EDE of the centered
list with the same parameters.  `np.average` raises `ZeroDivisionError`
when the weights sum to zero, before `ede` is entered. -/
noncomputable def kpIndex (a : List ℝ) (epsilon kappa : Option ℝ) (w : Option (List ℝ)) :
    Except PyErr ℝ :=
  match w with
  | none => kpEde (a.map (fun x => x - npMean a)) epsilon kappa none
  | some ws =>
      if ws.sum = 0 then .error .zeroDivisionError
      else kpEde (a.map (fun x => x - npAverage a (some ws))) epsilon kappa (some ws)

/-- Model of `ede` from `inequalipy/atkinson.py` (lines 26-40):
`((Σ wᵢ·aᵢ^(1-ε)) / N)^(1/(1-ε))` with `N = Σ wᵢ` (weights of one and
`N = len a` when absent).  The source raises `ZeroDivisionError` when the
weights sum to zero (inside the dead-code `np.average` call and again in
`sum_atk / N`), when `len a = 0` in the unweighted case, and — because
`1 / (1 - epsilon)` is a scalar Python division — when `epsilon = 1`.
There is no domain validation: a non-positive value is fed to the power
as-is (Python then yields a complex or NaN value; over ℝ the Mathlib
`rpow` supplies the value of the same expression).  Python's falsy test
`if not weights` also treats an empty weights list as absent; an empty
weights list against a non-empty `a` is rejected by `np.average` and is
modelled by the `ws.sum = 0` branch (no claim touches that corner).  The
embedding is faithful for weights of the same length as `a`: a weights
list of a different length raises `TypeError` inside `np.average` in the
source, whereas `List.zip` here truncates — every weighted claim theorem
below therefore carries a `ws.length = a.length` hypothesis. -/
noncomputable def atkEde (a : List ℝ) (epsilon : ℝ) (w : Option (List ℝ)) : Except PyErr ℝ :=
  match w with
  | none =>
      if (a.length : ℝ) = 0 then .error .zeroDivisionError
      else if (1 : ℝ) - epsilon = 0 then .error .zeroDivisionError
      else .ok (((a.map (fun x => x ^ ((1 : ℝ) - epsilon))).sum / (a.length : ℝ)) ^
        ((1 : ℝ) / (1 - epsilon)))
  | some ws =>
      if ws.sum = 0 then .error .zeroDivisionError
      else if (1 : ℝ) - epsilon = 0 then .error .zeroDivisionError
      else .ok ((((a.zip ws).map (fun p => p.1 ^ ((1 : ℝ) - epsilon) * p.2)).sum / ws.sum) ^
        ((1 : ℝ) / (1 - epsilon)))

/-- Model of `index` from `inequalipy/atkinson.py` (lines 66-69):
`1 - ede / np.average(a, weights)`. -/
noncomputable def atkIndex (a : List ℝ) (epsilon : ℝ) (w : Option (List ℝ)) : Except PyErr ℝ :=
  (atkEde a epsilon w).map (fun e => 1 - e / npAverage a w)

/-- Model of `np.cumsum` with a running total that has already reached `s`:
`cumsumFrom s [x₁, x₂, …] = [s+x₁, s+x₁+x₂, …]`. -/
def cumsumFrom (s : ℝ) : List ℝ → List ℝ
  | [] => []
  | x :: l => (s + x) :: cumsumFrom (s + x) l

/-- Model of `np.cumsum`: the list of prefix sums `[x₁, x₁+x₂, …]`. -/
def cumsum (l : List ℝ) : List ℝ := cumsumFrom 0 l

/-- The numerator summation of the weighted Gini branch in
`inequalipy/gini.py` (line 32): given the cumulative lists `cumxw` and
`cumw`, this is `np.sum(cumxw[1:] * cumw[:-1] - cumxw[:-1] * cumw[1:])`,
i.e. the sum over adjacent positions `k` of
`cumxw[k+1]·cumw[k] - cumxw[k]·cumw[k+1]`. -/
def giniNumAux : List ℝ → List ℝ → ℝ
  | x1 :: x2 :: xs, w1 :: w2 :: ws => (x2 * w1 - x1 * w2) + giniNumAux (x2 :: xs) (w2 :: ws)
  | _, _ => 0

/-- Order on (value, weight) pairs used to model `np.argsort(a)` followed by
indexing: pairs are compared by their value component. -/
def pairLe (p q : ℝ × ℝ) : Prop := p.1 ≤ q.1

noncomputable instance : DecidableRel pairLe := fun p q => Real.decidableLE p.1 q.1

instance : IsTotal (ℝ × ℝ) pairLe := ⟨fun p q => le_total p.1 q.1⟩

instance : IsTrans (ℝ × ℝ) pairLe := ⟨fun _ _ _ h h2 => le_trans h h2⟩

/-- The (value, weight) pairs sorted by value ascending, modelling
`sorted_x = a[np.argsort(a)]`, `sorted_w = weights[np.argsort(a)]`. -/
noncomputable def sortPairs (l : List (ℝ × ℝ)) : List (ℝ × ℝ) := l.insertionSort pairLe

/-- Model of `index` from `inequalipy/gini.py` (lines 23-39).  With weights:
sort the pairs by value, build the cumulative sums `cumw` and `cumxw`, and
divide the adjacent-difference sum by `cumxw[-1] * cumw[-1]`.  Without
weights: sort the values, with `cumx` their cumulative sums, and return
`(n + 1 - 2 * sum(cumx) / cumx[-1]) / n`.  A zero denominator makes numpy
return NaN (0/0) or ±Inf silently (only a runtime warning), which is
modelled by `none`; the source raises nothing here.  An empty `a` raises
`IndexError` at `cumx[-1]` in the source and is also mapped to `none`
(every claim assumes a non-empty list).  The embedding is faithful for
weights of the same length as `a`: a shorter weights array raises
`IndexError` at `weights[sorted_indices]` in the source, whereas
`List.zip` here truncates — every weighted claim theorem below therefore
carries a `ws.length = a.length` hypothesis. -/
noncomputable def gini (a : List ℝ) (w : Option (List ℝ)) : Option ℝ :=
  match w with
  | some ws =>
      let sorted := sortPairs (a.zip ws)
      let cumw := cumsum (sorted.map (fun p => p.2))
      let cumxw := cumsum (sorted.map (fun p => p.1 * p.2))
      if cumxw.getLastD 0 * cumw.getLastD 0 = 0 then none
      else some (giniNumAux cumxw cumw / (cumxw.getLastD 0 * cumw.getLastD 0))
  | none =>
      let s := a.insertionSort (· ≤ ·)
      let cumx := cumsum s
      let n : ℝ := (a.length : ℝ)
      if n = 0 ∨ cumx.getLastD 0 = 0 then none
      else some ((n + 1 - 2 * cumx.sum / cumx.getLastD 0) / n)

/-- The expanded multiset of claim C4: each value `aᵢ` repeated `vᵢ` times
(integer weights). -/
def expand : List ℝ → List ℕ → List ℝ
  | [], _ => []
  | _, [] => []
  | x :: a, n :: v => List.replicate n x ++ expand a v

/-- A mapped list sum over `a` as a `Finset.range` sum over positions. -/
theorem sum_map_getD (f : ℝ → ℝ) :
    ∀ a : List ℝ, (a.map f).sum = ∑ i ∈ Finset.range a.length, f (a.getD i 0)
  | [] => by simp
  | x :: a => by
    rw [List.map_cons, List.sum_cons, sum_map_getD f a, List.length_cons,
      Finset.sum_range_succ']
    simp [add_comm]

/-- A mapped sum over zipped value/weight lists of equal length as a
`Finset.range` sum over positions. -/
theorem sum_zip_getD (f : ℝ → ℝ → ℝ) :
    ∀ a ws : List ℝ, ws.length = a.length →
      ((a.zip ws).map (fun p => f p.1 p.2)).sum =
        ∑ i ∈ Finset.range a.length, f (a.getD i 0) (ws.getD i 0)
  | [], _, _ => by simp
  | _ :: _, [], h => by simp at h
  | x :: a, y :: ws, h => by
    rw [List.zip_cons_cons, List.map_cons, List.sum_cons,
      sum_zip_getD f a ws (by simpa using h), List.length_cons, Finset.sum_range_succ']
    simp [add_comm]

/-- C7: calling the Kolm-Pollak `ede` with neither `epsilon` nor `kappa`
fails with the missing-parameter error (the `raise TypeError` at
`kolmpollak.py:35`, which the spec taxonomy names `MissingParameterError`),
for every input list and every weights option. -/
theorem C7_kolm_pollak_ede_missing_parameter (a : List ℝ) (w : Option (List ℝ)) :
    kpEde a none none w = .error .missingParameterError := rfl

/-- C1: for a non-empty list and `kappa ≠ 0`, the Kolm-Pollak EDE is
`(-1/κ)·ln((Σ wᵢ·exp(-κ·aᵢ))/Σwᵢ)` in the weighted case and the same with
`Σwᵢ` replaced by `N` and unit weights in the unweighted case; and when
`kappa` is absent and `epsilon` is given, the kappa used is the one
derived by `calc_kappa` on `a`. -/
theorem C1_kolm_pollak_ede_formula (a ws : List ℝ) (k e : ℝ) (ha : a ≠ []) (hk : k ≠ 0)
    (hw : ws.length = a.length) :
    kpEde a none (some k) (some ws) =
      .ok ((-1 / k) * Real.log ((∑ i ∈ Finset.range a.length,
        ws.getD i 0 * Real.exp (-(k * a.getD i 0))) / ws.sum)) ∧
    kpEde a none (some k) none =
      .ok ((-1 / k) * Real.log ((∑ i ∈ Finset.range a.length,
        Real.exp (-(k * a.getD i 0))) / (a.length : ℝ))) ∧
    kpEde a (some e) none (some ws) =
      kpEde a none (some (calc_kappa a e (some ws))) (some ws) ∧
    kpEde a (some e) none none = kpEde a none (some (calc_kappa a e none)) none := by
  refine ⟨?_, ?_, rfl, rfl⟩
  · show Except.ok (kpEdeVal k a (some ws)) = _
    rw [kpEdeVal, sum_zip_getD (fun x w => Real.exp (x * -k) * w) a ws hw]
    have hterm : ∀ i ∈ Finset.range a.length,
        Real.exp (a.getD i 0 * -k) * ws.getD i 0 =
          ws.getD i 0 * Real.exp (-(k * a.getD i 0)) := by
      intro i _
      rw [mul_comm, show a.getD i 0 * -k = -(k * a.getD i 0) by ring]
    rw [Finset.sum_congr rfl hterm]
  · show Except.ok (kpEdeVal k a none) = _
    rw [kpEdeVal, sum_map_getD (fun x => Real.exp (x * -k)) a]
    have hterm : ∀ i ∈ Finset.range a.length,
        Real.exp (a.getD i 0 * -k) = Real.exp (-(k * a.getD i 0)) := by
      intro i _
      rw [show a.getD i 0 * -k = -(k * a.getD i 0) by ring]
    rw [Finset.sum_congr rfl hterm]

/-- Closed witness for C1 at `a = [1, 2]`, `ws = [1, 1]`, `k = 1`, `e = 1`. -/
theorem C1_kolm_pollak_ede_formula_witness :
    ([1, 2] : List ℝ) ≠ [] ∧ (1 : ℝ) ≠ 0 ∧ ([1, 1] : List ℝ).length = ([1, 2] : List ℝ).length ∧
    (kpEde [1, 2] none (some 1) (some [1, 1]) =
      .ok ((-1 / 1) * Real.log ((∑ i ∈ Finset.range ([1, 2] : List ℝ).length,
        ([1, 1] : List ℝ).getD i 0 * Real.exp (-(1 * ([1, 2] : List ℝ).getD i 0))) /
          ([1, 1] : List ℝ).sum)) ∧
    kpEde [1, 2] none (some 1) none =
      .ok ((-1 / 1) * Real.log ((∑ i ∈ Finset.range ([1, 2] : List ℝ).length,
        Real.exp (-(1 * ([1, 2] : List ℝ).getD i 0))) / (([1, 2] : List ℝ).length : ℝ))) ∧
    kpEde [1, 2] (some 1) none (some [1, 1]) =
      kpEde [1, 2] none (some (calc_kappa [1, 2] 1 (some [1, 1]))) (some [1, 1]) ∧
    kpEde [1, 2] (some 1) none none =
      kpEde [1, 2] none (some (calc_kappa [1, 2] 1 none)) none) :=
  ⟨by simp, by norm_num, by simp,
    C1_kolm_pollak_ede_formula [1, 2] [1, 1] 1 1 (by simp) (by norm_num) (by simp)⟩


/-- Any position whose weighted term is positive yields a positive weighted
square sum, provided all weights are non-negative. -/
theorem sq_sum_pos_of_wsum_pos (a ws : List ℝ) (hw : ws.length = a.length)
    (h0 : ∀ x ∈ ws, 0 ≤ x)
    (hpos : 0 < ∑ i ∈ Finset.range a.length, ws.getD i 0 * a.getD i 0) :
    0 < ∑ i ∈ Finset.range a.length, (a.getD i 0) ^ 2 * ws.getD i 0 := by
  have hgetD : ∀ i ∈ Finset.range a.length, 0 ≤ ws.getD i 0 := by
    intro i hi
    rcases Finset.mem_range.mp hi with hi'
    have hiw : i < ws.length := by rw [hw]; exact hi'
    rw [List.getD_eq_getElem ws 0 hiw]
    exact h0 _ (List.getElem_mem hiw)
  obtain ⟨j, hj, hjpos⟩ : ∃ j ∈ Finset.range a.length, 0 < ws.getD j 0 * a.getD j 0 := by
    by_contra hc
    push_neg at hc
    exact absurd (Finset.sum_nonpos hc) (not_le.mpr hpos)
  refine Finset.sum_pos' (fun i hi => mul_nonneg (sq_nonneg _) (hgetD i hi)) ⟨j, hj, ?_⟩
  have hwj : 0 < ws.getD j 0 := by
    rcases lt_or_eq_of_le (hgetD j hj) with h | h
    · exact h
    · exfalso
      rw [← h, zero_mul] at hjpos
      exact lt_irrefl 0 hjpos
  have haj : a.getD j 0 ≠ 0 := by
    intro h
    rw [h, mul_zero] at hjpos
    exact lt_irrefl 0 hjpos
  exact mul_pos (pow_pos (abs_pos.mpr haj) 2 |>.trans_le (by rw [sq_abs])) hwj

/-- C5: `calc_kappa` returns `epsilon·(Σ wᵢaᵢ)/(Σ wᵢaᵢ²)` in the weighted
case and `epsilon·(Σ aᵢ)/(Σ aᵢ²)` in the unweighted case, and a positive
epsilon on a distribution with positive (weighted) sum yields a positive
kappa. -/
theorem C5_calc_kappa_formula (a ws : List ℝ) (e : ℝ) (hw : ws.length = a.length)
    (hden : (∑ i ∈ Finset.range a.length, ws.getD i 0 * (a.getD i 0) ^ 2) ≠ 0) :
    calc_kappa a e (some ws) =
      e * (∑ i ∈ Finset.range a.length, ws.getD i 0 * a.getD i 0) /
        (∑ i ∈ Finset.range a.length, ws.getD i 0 * (a.getD i 0) ^ 2) ∧
    calc_kappa a e none =
      e * (∑ i ∈ Finset.range a.length, a.getD i 0) /
        (∑ i ∈ Finset.range a.length, (a.getD i 0) ^ 2) ∧
    (0 < e → (∀ x ∈ ws, 0 ≤ x) →
      0 < ∑ i ∈ Finset.range a.length, ws.getD i 0 * a.getD i 0 →
      0 < calc_kappa a e (some ws)) ∧
    (0 < e → 0 < ∑ i ∈ Finset.range a.length, a.getD i 0 →
      0 < calc_kappa a e none) := by
  have hzipmul : ((a.zip ws).map (fun p => p.1 * p.2)).sum =
      ∑ i ∈ Finset.range a.length, ws.getD i 0 * a.getD i 0 := by
    rw [sum_zip_getD (fun x w => x * w) a ws hw]
    exact Finset.sum_congr rfl (fun i _ => mul_comm _ _)
  have hzipsq : ((a.zip ws).map (fun p => p.1 ^ 2 * p.2)).sum =
      ∑ i ∈ Finset.range a.length, ws.getD i 0 * (a.getD i 0) ^ 2 := by
    rw [sum_zip_getD (fun x w => x ^ 2 * w) a ws hw]
    exact Finset.sum_congr rfl (fun i _ => mul_comm _ _)
  have hsum : a.sum = ∑ i ∈ Finset.range a.length, a.getD i 0 := by
    have := sum_map_getD (fun x => x) a
    rwa [List.map_id'] at this
  have hsq : (a.map (fun x => x ^ 2)).sum = ∑ i ∈ Finset.range a.length, (a.getD i 0) ^ 2 :=
    sum_map_getD (fun x => x ^ 2) a
  refine ⟨?_, ?_, ?_, ?_⟩
  · rw [calc_kappa, hzipmul, hzipsq, mul_div_assoc]
  · rw [calc_kappa, hsum, hsq, mul_div_assoc]
  · intro he h0 hpos
    rw [calc_kappa, hzipmul, hzipsq]
    have hsqpos : 0 < ∑ i ∈ Finset.range a.length, ws.getD i 0 * (a.getD i 0) ^ 2 := by
      have := sq_sum_pos_of_wsum_pos a ws hw h0 hpos
      rwa [Finset.sum_congr rfl (fun i _ => mul_comm ((a.getD i 0) ^ 2) (ws.getD i 0))] at this
    exact mul_pos he (div_pos hpos hsqpos)
  · intro he hpos
    rw [calc_kappa, hsum, hsq]
    have hsqpos : 0 < ∑ i ∈ Finset.range a.length, (a.getD i 0) ^ 2 := by
      obtain ⟨j, hj, hjpos⟩ : ∃ j ∈ Finset.range a.length, 0 < a.getD j 0 := by
        by_contra hc
        push_neg at hc
        exact absurd (Finset.sum_nonpos hc) (not_le.mpr hpos)
      exact Finset.sum_pos' (fun i _ => sq_nonneg _) ⟨j, hj, pow_pos hjpos 2⟩
    exact mul_pos he (div_pos hpos hsqpos)

/-- Closed witness for C5 at `a = [1, 2]`, `ws = [1, 1]`, `e = 1`. -/
theorem C5_calc_kappa_formula_witness :
    ([1, 1] : List ℝ).length = ([1, 2] : List ℝ).length ∧
    (∑ i ∈ Finset.range ([1, 2] : List ℝ).length,
      ([1, 1] : List ℝ).getD i 0 * (([1, 2] : List ℝ).getD i 0) ^ 2) ≠ 0 ∧
    (calc_kappa [1, 2] 1 (some [1, 1]) =
      1 * (∑ i ∈ Finset.range ([1, 2] : List ℝ).length,
        ([1, 1] : List ℝ).getD i 0 * ([1, 2] : List ℝ).getD i 0) /
        (∑ i ∈ Finset.range ([1, 2] : List ℝ).length,
          ([1, 1] : List ℝ).getD i 0 * (([1, 2] : List ℝ).getD i 0) ^ 2) ∧
    calc_kappa [1, 2] 1 none =
      1 * (∑ i ∈ Finset.range ([1, 2] : List ℝ).length, ([1, 2] : List ℝ).getD i 0) /
        (∑ i ∈ Finset.range ([1, 2] : List ℝ).length, (([1, 2] : List ℝ).getD i 0) ^ 2) ∧
    (0 < (1 : ℝ) → (∀ x ∈ ([1, 1] : List ℝ), 0 ≤ x) →
      0 < ∑ i ∈ Finset.range ([1, 2] : List ℝ).length,
        ([1, 1] : List ℝ).getD i 0 * ([1, 2] : List ℝ).getD i 0 →
      0 < calc_kappa [1, 2] 1 (some [1, 1])) ∧
    (0 < (1 : ℝ) → 0 < ∑ i ∈ Finset.range ([1, 2] : List ℝ).length,
      ([1, 2] : List ℝ).getD i 0 → 0 < calc_kappa [1, 2] 1 none)) :=
  ⟨by simp, by simp [Finset.sum_range_succ]; norm_num,
    C5_calc_kappa_formula [1, 2] [1, 1] 1 (by simp)
      (by simp [Finset.sum_range_succ]; norm_num)⟩

/-- The weighted Atkinson power sum, rewritten over positions. -/
theorem atk_weighted_sum_getD (a ws : List ℝ) (ε : ℝ) (hw : ws.length = a.length) :
    ((a.zip ws).map (fun p => p.1 ^ ((1 : ℝ) - ε) * p.2)).sum =
      ∑ i ∈ Finset.range a.length, ws.getD i 0 * a.getD i 0 ^ ((1 : ℝ) - ε) := by
  rw [sum_zip_getD (fun x w => x ^ ((1 : ℝ) - ε) * w) a ws hw]
  exact Finset.sum_congr rfl (fun i _ => mul_comm _ _)

/-- C3: for a non-empty list of positive values, `epsilon ≠ 1` and
non-negative weights of matching length (with positive total, as §4.1
requires of weights), `atkinson.ede` returns
`((Σ wᵢ·aᵢ^(1-ε))/Σwᵢ)^(1/(1-ε))` (with unit weights and `N = len a`
when weights are absent), and `atkinson.index` returns `1 - EDE/mean(a)`
with the corresponding (weighted) mean. -/
theorem C3_atkinson_formula (a ws : List ℝ) (ε : ℝ) (ha : a ≠ []) (hpos : ∀ x ∈ a, 0 < x)
    (hε : ε ≠ 1) (hw : ws.length = a.length) (h0 : ∀ x ∈ ws, 0 ≤ x) (hs : 0 < ws.sum) :
    atkEde a ε (some ws) = .ok (((∑ i ∈ Finset.range a.length,
        ws.getD i 0 * a.getD i 0 ^ ((1 : ℝ) - ε)) / ws.sum) ^ ((1 : ℝ) / (1 - ε))) ∧
    atkEde a ε none = .ok (((∑ i ∈ Finset.range a.length,
        a.getD i 0 ^ ((1 : ℝ) - ε)) / (a.length : ℝ)) ^ ((1 : ℝ) / (1 - ε))) ∧
    atkIndex a ε (some ws) = .ok (1 - ((∑ i ∈ Finset.range a.length,
        ws.getD i 0 * a.getD i 0 ^ ((1 : ℝ) - ε)) / ws.sum) ^ ((1 : ℝ) / (1 - ε)) /
        ((∑ i ∈ Finset.range a.length, ws.getD i 0 * a.getD i 0) / ws.sum)) ∧
    atkIndex a ε none = .ok (1 - ((∑ i ∈ Finset.range a.length,
        a.getD i 0 ^ ((1 : ℝ) - ε)) / (a.length : ℝ)) ^ ((1 : ℝ) / (1 - ε)) /
        (a.sum / (a.length : ℝ))) := by
  have hsne : ws.sum ≠ 0 := ne_of_gt hs
  have h1ε : (1 : ℝ) - ε ≠ 0 := sub_ne_zero.mpr (Ne.symm hε)
  have hlen : (a.length : ℝ) ≠ 0 := by
    simp only [ne_eq, Nat.cast_eq_zero, List.length_eq_zero]
    exact ha
  have hedem : atkEde a ε (some ws) = .ok (((∑ i ∈ Finset.range a.length,
      ws.getD i 0 * a.getD i 0 ^ ((1 : ℝ) - ε)) / ws.sum) ^ ((1 : ℝ) / (1 - ε))) := by
    rw [atkEde, if_neg hsne, if_neg h1ε, atk_weighted_sum_getD a ws ε hw]
  have hedeu : atkEde a ε none = .ok (((∑ i ∈ Finset.range a.length,
      a.getD i 0 ^ ((1 : ℝ) - ε)) / (a.length : ℝ)) ^ ((1 : ℝ) / (1 - ε))) := by
    rw [atkEde, if_neg hlen, if_neg h1ε, sum_map_getD (fun x => x ^ ((1 : ℝ) - ε)) a]
  refine ⟨hedem, hedeu, ?_, ?_⟩
  · rw [atkIndex, hedem, Except.map, npAverage,
      sum_zip_getD (fun x w => x * w) a ws hw,
      Finset.sum_congr rfl (fun (i : ℕ) _ => mul_comm (a.getD i 0) (ws.getD i 0))]
  · rw [atkIndex, hedeu, Except.map, npAverage, npMean]

/-- Closed witness for C3 at `a = [1, 2]`, `ws = [1, 1]`, `ε = 1/2`. -/
theorem C3_atkinson_formula_witness :
    ([1, 2] : List ℝ) ≠ [] ∧ (∀ x ∈ ([1, 2] : List ℝ), 0 < x) ∧ ((1 : ℝ)/2) ≠ 1 ∧
    ([1, 1] : List ℝ).length = ([1, 2] : List ℝ).length ∧
    (∀ x ∈ ([1, 1] : List ℝ), 0 ≤ x) ∧ 0 < ([1, 1] : List ℝ).sum ∧
    (atkEde [1, 2] (1/2) (some [1, 1]) = .ok (((∑ i ∈ Finset.range ([1, 2] : List ℝ).length,
        ([1, 1] : List ℝ).getD i 0 * ([1, 2] : List ℝ).getD i 0 ^ ((1 : ℝ) - 1/2)) /
          ([1, 1] : List ℝ).sum) ^ ((1 : ℝ) / (1 - 1/2))) ∧
    atkEde [1, 2] (1/2) none = .ok (((∑ i ∈ Finset.range ([1, 2] : List ℝ).length,
        ([1, 2] : List ℝ).getD i 0 ^ ((1 : ℝ) - 1/2)) / (([1, 2] : List ℝ).length : ℝ)) ^
          ((1 : ℝ) / (1 - 1/2))) ∧
    atkIndex [1, 2] (1/2) (some [1, 1]) = .ok (1 -
      ((∑ i ∈ Finset.range ([1, 2] : List ℝ).length,
        ([1, 1] : List ℝ).getD i 0 * ([1, 2] : List ℝ).getD i 0 ^ ((1 : ℝ) - 1/2)) /
          ([1, 1] : List ℝ).sum) ^ ((1 : ℝ) / (1 - 1/2)) /
        ((∑ i ∈ Finset.range ([1, 2] : List ℝ).length,
          ([1, 1] : List ℝ).getD i 0 * ([1, 2] : List ℝ).getD i 0) / ([1, 1] : List ℝ).sum)) ∧
    atkIndex [1, 2] (1/2) none = .ok (1 -
      ((∑ i ∈ Finset.range ([1, 2] : List ℝ).length,
        ([1, 2] : List ℝ).getD i 0 ^ ((1 : ℝ) - 1/2)) / (([1, 2] : List ℝ).length : ℝ)) ^
          ((1 : ℝ) / (1 - 1/2)) / (([1, 2] : List ℝ).sum / (([1, 2] : List ℝ).length : ℝ)))) := by
  refine ⟨by simp, ?_, by norm_num, by simp, ?_, by norm_num, ?_⟩
  · intro x hx
    simp only [List.mem_cons, List.not_mem_nil, or_false] at hx
    rcases hx with h | h <;> rw [h] <;> norm_num
  · intro x hx
    simp only [List.mem_cons, List.not_mem_nil, or_false] at hx
    rcases hx with h | h <;> rw [h] <;> norm_num
  · exact C3_atkinson_formula [1, 2] [1, 1] (1/2) (by simp)
      (by
        intro x hx
        simp only [List.mem_cons, List.not_mem_nil, or_false] at hx
        rcases hx with h | h <;> rw [h] <;> norm_num)
      (by norm_num) (by simp)
      (by
        intro x hx
        simp only [List.mem_cons, List.not_mem_nil, or_false] at hx
        rcases hx with h | h <;> rw [h] <;> norm_num)
      (by norm_num)

/-- The last entry of a running cumulative sum is the offset plus the total. -/
theorem cumsumFrom_getLastD : ∀ (l : List ℝ) (X : ℝ), (cumsumFrom X l).getLastD X = X + l.sum
  | [], X => by simp [cumsumFrom]
  | x :: l, X => by
    rw [cumsumFrom, List.getLastD_cons, cumsumFrom_getLastD l (X + x), List.sum_cons]
    ring

/-- `cumx[-1]` equals the list total. -/
theorem cumsum_getLastD (l : List ℝ) : (cumsum l).getLastD 0 = l.sum := by
  rw [cumsum, cumsumFrom_getLastD, zero_add]

/-- Total of a running cumulative sum in terms of the plain one. -/
theorem cumsumFrom_sum : ∀ (l : List ℝ) (X : ℝ),
    (cumsumFrom X l).sum = X * (l.length : ℝ) + (cumsum l).sum
  | [], X => by simp [cumsumFrom, cumsum]
  | x :: l, X => by
    have h0 : (cumsum (x :: l)).sum = (0 + x) + ((0 + x) * (l.length : ℝ) + (cumsum l).sum) := by
      rw [cumsum, cumsumFrom, List.sum_cons, cumsumFrom_sum l (0 + x)]
    rw [cumsumFrom, List.sum_cons, cumsumFrom_sum l (X + x), h0, List.length_cons]
    push_cast
    ring

/-- Rank-style reformulation of the weighted Gini numerator: each element
contributes its weight times (its value times the cumulative weight before
it minus the cumulative weighted value before it), with `X`/`W` the
accumulated weighted-value and weight offsets. -/
def rankSum (X W : ℝ) : List (ℝ × ℝ) → ℝ
  | [] => 0
  | p :: l => p.2 * (p.1 * W - X) + rankSum (X + p.1 * p.2) (W + p.2) l

/-- Sum over ordered index pairs `i < j` of `wᵢ·wⱼ·(xⱼ - xᵢ)`. -/
def pairSum : List (ℝ × ℝ) → ℝ
  | [] => 0
  | p :: l => (l.map (fun q => p.2 * q.2 * (q.1 - p.1))).sum + pairSum l

/-- Inner sum of the symmetric mean-absolute-difference form. -/
noncomputable def innerAbs (l : List (ℝ × ℝ)) (p : ℝ × ℝ) : ℝ :=
  (l.map (fun q => p.2 * q.2 * |p.1 - q.1|)).sum

/-- Symmetric double sum `Σᵢ Σⱼ wᵢ·wⱼ·|xᵢ - xⱼ|` over all pairs of elements
of `l` (a permutation-invariant quantity). -/
noncomputable def absPairSum (l : List (ℝ × ℝ)) : ℝ := (l.map (innerAbs l)).sum

/-- A mapped list sum splits over pointwise addition. -/
theorem list_sum_map_add {α : Type} (f g : α → ℝ) :
    ∀ l : List α, (l.map (fun x => f x + g x)).sum = (l.map f).sum + (l.map g).sum
  | [] => by simp
  | x :: l => by
    rw [List.map_cons, List.sum_cons, list_sum_map_add f g l, List.map_cons, List.sum_cons,
      List.map_cons, List.sum_cons]
    ring

/-- The adjacent-difference sum over cumulative lists computes `rankSum`. -/
theorem giniNumAux_rankSum :
    ∀ (l : List (ℝ × ℝ)) (p : ℝ × ℝ) (X W : ℝ),
      giniNumAux (cumsumFrom X ((p :: l).map (fun q => q.1 * q.2)))
          (cumsumFrom W ((p :: l).map (fun q => q.2))) =
        rankSum (X + p.1 * p.2) (W + p.2) l
  | [], p, X, W => by simp [cumsumFrom, giniNumAux, rankSum]
  | q :: l, p, X, W => by
    have ih := giniNumAux_rankSum l q (X + p.1 * p.2) (W + p.2)
    simp only [List.map_cons, cumsumFrom, giniNumAux] at ih ⊢
    rw [ih, rankSum]
    ring

/-- A mapped sum of the linear form `c·(x·w) + d·w` over pairs. -/
theorem sum_map_pair_linear (c d : ℝ) :
    ∀ l : List (ℝ × ℝ), (l.map (fun q => c * (q.1 * q.2) + d * q.2)).sum =
      c * (l.map (fun q => q.1 * q.2)).sum + d * (l.map (fun q => q.2)).sum
  | [] => by simp
  | q :: l => by
    simp only [List.map_cons, List.sum_cons, sum_map_pair_linear c d l]
    ring

/-- The offsets of `rankSum` enter linearly. -/
theorem rankSum_shift : ∀ (l : List (ℝ × ℝ)) (X W : ℝ),
    rankSum X W l = W * (l.map (fun q => q.1 * q.2)).sum - X * (l.map (fun q => q.2)).sum +
      rankSum 0 0 l
  | [], X, W => by simp [rankSum]
  | p :: l, X, W => by
    have h0 : rankSum 0 0 (p :: l) = p.2 * (p.1 * 0 - 0) +
        ((0 + p.2) * (l.map (fun q => q.1 * q.2)).sum -
          (0 + p.1 * p.2) * (l.map (fun q => q.2)).sum + rankSum 0 0 l) := by
      rw [rankSum, rankSum_shift l (0 + p.1 * p.2) (0 + p.2)]
    rw [rankSum, rankSum_shift l (X + p.1 * p.2) (W + p.2), h0, List.map_cons, List.sum_cons,
      List.map_cons, List.sum_cons]
    ring

/-- Zero-offset `rankSum` is the ordered pairwise-difference sum. -/
theorem rankSum_pairSum : ∀ l : List (ℝ × ℝ), rankSum 0 0 l = pairSum l
  | [] => rfl
  | p :: l => by
    have hlin : (l.map (fun q => p.2 * q.2 * (q.1 - p.1))).sum =
        p.2 * (l.map (fun q => q.1 * q.2)).sum +
          (-(p.1 * p.2)) * (l.map (fun q => q.2)).sum := by
      rw [← sum_map_pair_linear p.2 (-(p.1 * p.2)) l]
      refine congrArg List.sum (List.map_congr_left ?_)
      intro q _
      ring
    rw [rankSum, rankSum_shift l (0 + p.1 * p.2) (0 + p.2), rankSum_pairSum l, pairSum, hlin]
    ring

/-- Unfolding `absPairSum` over a cons: the head contributes two equal cross
sums (symmetric in the two positions) plus the tail double sum. -/
theorem absPairSum_cons (p : ℝ × ℝ) (l : List (ℝ × ℝ)) :
    absPairSum (p :: l) = (l.map (fun q => p.2 * q.2 * |p.1 - q.1|)).sum +
      (l.map (fun q => q.2 * p.2 * |q.1 - p.1|)).sum + absPairSum l := by
  have hrow : ∀ q : ℝ × ℝ, innerAbs (p :: l) q =
      q.2 * p.2 * |q.1 - p.1| + innerAbs l q := by
    intro q
    rw [innerAbs, List.map_cons, List.sum_cons, innerAbs]
  rw [absPairSum, List.map_cons, List.sum_cons, hrow p, List.map_congr_left
    (fun q _ => hrow q), list_sum_map_add (fun q => q.2 * p.2 * |q.1 - p.1|) (innerAbs l) l,
    absPairSum, innerAbs]
  have hself : p.2 * p.2 * |p.1 - p.1| = 0 := by simp
  rw [sub_self, abs_zero, mul_zero]
  ring

/-- On a list sorted by value, twice the ordered pairwise-difference sum is
the symmetric absolute double sum. -/
theorem two_pairSum_eq_absPairSum :
    ∀ l : List (ℝ × ℝ), List.Sorted pairLe l → 2 * pairSum l = absPairSum l
  | [], _ => by simp [pairSum, absPairSum]
  | p :: l, h => by
    obtain ⟨hp, hl⟩ := List.sorted_cons.mp h
    have h1 : (l.map (fun q => p.2 * q.2 * |p.1 - q.1|)).sum =
        (l.map (fun q => p.2 * q.2 * (q.1 - p.1))).sum := by
      refine congrArg List.sum (List.map_congr_left ?_)
      intro q hq
      rw [abs_sub_comm, abs_of_nonneg (sub_nonneg.mpr (hp q hq))]
    have h2 : (l.map (fun q => q.2 * p.2 * |q.1 - p.1|)).sum =
        (l.map (fun q => p.2 * q.2 * (q.1 - p.1))).sum := by
      refine congrArg List.sum (List.map_congr_left ?_)
      intro q hq
      rw [abs_of_nonneg (sub_nonneg.mpr (hp q hq)), mul_comm q.2 p.2]
    rw [absPairSum_cons, pairSum, h1, h2, ← two_pairSum_eq_absPairSum l hl]
    ring

/-- `absPairSum` only depends on the multiset of (value, weight) pairs. -/
theorem absPairSum_perm {l l' : List (ℝ × ℝ)} (h : l.Perm l') :
    absPairSum l = absPairSum l' := by
  have hin : ∀ p : ℝ × ℝ, innerAbs l p = innerAbs l' p := by
    intro p
    exact (h.map (fun q => p.2 * q.2 * |p.1 - q.1|)).sum_eq
  rw [absPairSum, List.map_congr_left (fun p _ => hin p), absPairSum]
  exact (h.map (innerAbs l')).sum_eq

/-- A mapped sum of an affine form over a real list. -/
theorem list_sum_map_affine (c d : ℝ) :
    ∀ l : List ℝ, (l.map (fun y => c * y + d)).sum = c * l.sum + (l.length : ℝ) * d
  | [] => by simp
  | x :: l => by
    simp only [List.map_cons, List.sum_cons, list_sum_map_affine c d l, List.length_cons]
    push_cast
    ring

/-- The unweighted Gini numerator `(n+1)·Σx - 2·Σ(cumsum x)` is the ordered
pairwise-difference sum with unit weights (pure algebra, any order). -/
theorem unweighted_num_pairSum :
    ∀ s : List ℝ, ((s.length : ℝ) + 1) * s.sum - 2 * (cumsum s).sum =
      pairSum (s.map (fun x => (x, 1)))
  | [] => by simp [cumsum, cumsumFrom, pairSum]
  | x :: s => by
    have hcum : (cumsum (x :: s)).sum = (0 + x) + ((0 + x) * (s.length : ℝ) +
        (cumsum s).sum) := by
      rw [cumsum, cumsumFrom, List.sum_cons, cumsumFrom_sum s (0 + x)]
    have hcross : ((s.map (fun y => (y, (1 : ℝ)))).map
        (fun q => (1 : ℝ) * q.2 * (q.1 - x))).sum = 1 * s.sum + (s.length : ℝ) * (-x) := by
      rw [List.map_map, ← list_sum_map_affine 1 (-x) s]
      refine congrArg List.sum (List.map_congr_left ?_)
      intro y _
      simp only [Function.comp]
      ring
    rw [List.map_cons, pairSum, hcross, ← unweighted_num_pairSum s, hcum, List.sum_cons,
      List.length_cons]
    push_cast
    ring

/-- Dropping the head term of a zero-offset `rankSum` (the head contributes
nothing since both running totals start at zero). -/
theorem rankSum_zero_cons (p : ℝ × ℝ) (l : List (ℝ × ℝ)) :
    rankSum 0 0 (p :: l) = rankSum (0 + p.1 * p.2) (0 + p.2) l := by
  simp only [rankSum]
  have h : p.2 * (p.1 * 0 - 0) = 0 := by ring
  rw [h, zero_add]

/-- The adjacent-difference numerator of the weighted Gini branch equals the
ordered pairwise-difference sum of the sorted pair list. -/
theorem giniNumAux_eq_pairSum (l : List (ℝ × ℝ)) :
    giniNumAux (cumsum (l.map (fun p => p.1 * p.2))) (cumsum (l.map (fun p => p.2))) =
      pairSum l := by
  cases l with
  | nil => simp [cumsum, cumsumFrom, giniNumAux, pairSum]
  | cons p l =>
    rw [cumsum, cumsum, giniNumAux_rankSum l p 0 0, ← rankSum_zero_cons, rankSum_pairSum]

/-- The weighted Gini value in closed form: the symmetric absolute double
sum over the (value, weight) pairs divided by twice the product of the
total weighted value and the total weight. -/
theorem gini_weighted_value (a ws : List ℝ) (hw : ws.length = a.length)
    (hT : ((a.zip ws).map (fun p => p.1 * p.2)).sum ≠ 0) (hW : ws.sum ≠ 0) :
    gini a (some ws) = some (absPairSum (a.zip ws) /
      (2 * (((a.zip ws).map (fun p => p.1 * p.2)).sum * ws.sum))) := by
  have hperm : (sortPairs (a.zip ws)).Perm (a.zip ws) := List.perm_insertionSort pairLe _
  have hxw : ((sortPairs (a.zip ws)).map (fun p => p.1 * p.2)).sum =
      ((a.zip ws).map (fun p => p.1 * p.2)).sum := (hperm.map _).sum_eq
  have hwsum : ((sortPairs (a.zip ws)).map (fun p => p.2)).sum = ws.sum := by
    rw [(hperm.map (fun p => p.2)).sum_eq]
    show (List.map Prod.snd (a.zip ws)).sum = ws.sum
    rw [List.map_snd_zip a ws (le_of_eq hw)]
  have hsorted : List.Sorted pairLe (sortPairs (a.zip ws)) :=
    List.sorted_insertionSort pairLe _
  have habs : absPairSum (a.zip ws) = 2 * pairSum (sortPairs (a.zip ws)) :=
    ((absPairSum_perm hperm).symm).trans (two_pairSum_eq_absPairSum _ hsorted).symm
  simp only [gini, cumsum_getLastD, hxw, hwsum]
  rw [if_neg (mul_ne_zero hT hW), giniNumAux_eq_pairSum, habs,
    mul_div_mul_left _ _ (two_ne_zero)]

/-- The unweighted Gini value in closed form: the symmetric absolute double
sum with unit weights divided by twice `n` times the total. -/
theorem gini_unweighted_value (a : List ℝ) (ha : a ≠ []) (hT : a.sum ≠ 0) :
    gini a none = some (absPairSum (a.map (fun x => (x, 1))) /
      (2 * ((a.length : ℝ) * a.sum))) := by
  have hperm : (a.insertionSort (· ≤ ·)).Perm a := List.perm_insertionSort _ a
  have hsum : (a.insertionSort (· ≤ ·)).sum = a.sum := hperm.sum_eq
  have hn : (a.length : ℝ) ≠ 0 := by
    simp only [ne_eq, Nat.cast_eq_zero, List.length_eq_zero]
    exact ha
  have hsorted : List.Sorted pairLe ((a.insertionSort (· ≤ ·)).map (fun x => (x, (1 : ℝ)))) := by
    refine List.Pairwise.map _ ?_ (List.sorted_insertionSort (· ≤ ·) a)
    intro x y hxy
    exact hxy
  have habs : absPairSum (a.map (fun x => (x, 1))) =
      2 * pairSum ((a.insertionSort (· ≤ ·)).map (fun x => (x, 1))) := by
    rw [two_pairSum_eq_absPairSum _ hsorted]
    exact absPairSum_perm ((hperm.map _).symm)
  have hlen : ((a.insertionSort (· ≤ ·)).length : ℝ) = (a.length : ℝ) := by
    rw [hperm.length_eq]
  simp only [gini, cumsum_getLastD, hsum]
  rw [if_neg (by push_neg; exact ⟨hn, hT⟩)]
  have hval : ((a.length : ℝ) + 1 - 2 * (cumsum (a.insertionSort (· ≤ ·))).sum / a.sum) /
      (a.length : ℝ) = (((a.length : ℝ) + 1) * a.sum -
        2 * (cumsum (a.insertionSort (· ≤ ·))).sum) / (a.sum * (a.length : ℝ)) := by
    field_simp
  rw [hval, ← hsum, ← hlen, unweighted_num_pairSum, habs, hsum, hlen]
  rw [show a.sum * (a.length : ℝ) = (a.length : ℝ) * a.sum by ring]
  rw [mul_div_mul_left _ _ (two_ne_zero (α := ℝ))]

/-- When the values sum to zero, the unweighted Gini divides by zero and
numpy silently yields a non-finite value (modelled `none`). -/
theorem gini_unweighted_none (a : List ℝ) (h : a.sum = 0) : gini a none = none := by
  simp only [gini, cumsum_getLastD]
  rw [if_pos (Or.inr (by rw [(List.perm_insertionSort _ a).sum_eq, h]))]

/-- When the weighted values sum to zero, the weighted Gini divides by zero
and numpy silently yields a non-finite value (modelled `none`). -/
theorem gini_weighted_none (a ws : List ℝ)
    (h : ((a.zip ws).map (fun p => p.1 * p.2)).sum = 0) : gini a (some ws) = none := by
  have hperm : (sortPairs (a.zip ws)).Perm (a.zip ws) := List.perm_insertionSort pairLe _
  have hxw : ((sortPairs (a.zip ws)).map (fun p => p.1 * p.2)).sum = 0 := by
    rw [(hperm.map _).sum_eq, h]
  simp only [gini, cumsum_getLastD, hxw, zero_mul, if_true]

/-- C8 counterexample: on the flat all-zero distribution `[0, 0, 0]` the
Gini does not raise any error: the source performs `0/0`, numpy emits only
a runtime warning, and a non-finite NaN value is silently returned
(modelled by `none`; the source defines no `DegenerateParameterError` and
raises nothing on this input). -/
theorem C8_counterexample_gini_silent_nan : gini [0, 0, 0] none = none :=
  gini_unweighted_none [0, 0, 0] (by norm_num)

/-- C8 (amended): when the total weighted sum is zero, `gini.index` does
not fail explicitly; it silently produces a non-finite value (numpy NaN,
modelled `none`), in both the unweighted and the weighted branches (with
weights of matching length, where the embedding is faithful — a
length-mismatched weights array raises `IndexError` at
`weights[sorted_indices]` in the source and is outside this model).  The
original claim — that it fails with `DegenerateParameterError` and that
every public function either returns a finite scalar or fails explicitly —
is false of the code. -/
theorem C8_gini_zero_total_silent (a ws : List ℝ) (ha : a ≠ [])
    (hlen : ws.length = a.length) (hu : a.sum = 0)
    (hw : ((a.zip ws).map (fun p => p.1 * p.2)).sum = 0) :
    gini a none = none ∧ gini a (some ws) = none :=
  ⟨gini_unweighted_none a hu, gini_weighted_none a ws hw⟩

/-- Closed witness for C8 at `a = [0, 0]`, `ws = [1, 1]`. -/
theorem C8_gini_zero_total_silent_witness :
    ([0, 0] : List ℝ) ≠ [] ∧ ([1, 1] : List ℝ).length = ([0, 0] : List ℝ).length ∧
    ([0, 0] : List ℝ).sum = 0 ∧
    ((([0, 0] : List ℝ).zip ([1, 1] : List ℝ)).map (fun p => p.1 * p.2)).sum = 0 ∧
    (gini [0, 0] none = none ∧ gini [0, 0] (some [1, 1]) = none) :=
  ⟨by simp, by simp, by norm_num, by norm_num [List.zip_cons_cons],
    C8_gini_zero_total_silent [0, 0] [1, 1] (by simp) (by simp) (by norm_num)
      (by norm_num [List.zip_cons_cons])⟩

/-- A positive total weighted value forces a positive total weight, given
non-negative weights of matching length. -/
theorem wsum_pos_of_wxsum_pos (a ws : List ℝ) (hw : ws.length = a.length)
    (h0 : ∀ x ∈ ws, 0 ≤ x)
    (hpos : 0 < ((a.zip ws).map (fun p => p.1 * p.2)).sum) : 0 < ws.sum := by
  rw [sum_zip_getD (fun x w => x * w) a ws hw] at hpos
  obtain ⟨j, hj, hjpos⟩ : ∃ j ∈ Finset.range a.length, 0 < a.getD j 0 * ws.getD j 0 := by
    by_contra hc
    push_neg at hc
    exact absurd (Finset.sum_nonpos hc) (not_le.mpr hpos)
  have hjw : j < ws.length := by rw [hw]; exact Finset.mem_range.mp hj
  have hmem : ws.getD j 0 ∈ ws := by
    rw [List.getD_eq_getElem ws 0 hjw]
    exact List.getElem_mem hjw
  have hwj : 0 < ws.getD j 0 := by
    rcases lt_or_eq_of_le (h0 _ hmem) with h | h
    · exact h
    · exfalso
      rw [← h, mul_zero] at hjpos
      exact lt_irrefl 0 hjpos
  exact lt_of_lt_of_le hwj (List.single_le_sum h0 _ hmem)

/-- Zipping against an all-ones weight list of matching length pairs every
value with the weight one. -/
theorem zip_ones : ∀ a ws : List ℝ, ws.length = a.length → (∀ x ∈ ws, x = 1) →
    a.zip ws = a.map (fun x => (x, 1))
  | [], [], _, _ => rfl
  | [], _ :: _, h, _ => by simp at h
  | _ :: _, [], h, _ => by simp at h
  | x :: a, w :: ws, h, h1 => by
    rw [List.zip_cons_cons, List.map_cons, zip_ones a ws (by simpa using h)
      (fun y hy => h1 y (List.mem_cons_of_mem w hy)), h1 w (List.mem_cons_self w ws)]

/-- An all-ones list sums to its length. -/
theorem sum_ones : ∀ ws : List ℝ, (∀ x ∈ ws, x = 1) → ws.sum = (ws.length : ℝ)
  | [], _ => by simp
  | w :: ws, h1 => by
    rw [List.sum_cons, h1 w (List.mem_cons_self w ws),
      sum_ones ws (fun y hy => h1 y (List.mem_cons_of_mem w hy)), List.length_cons]
    push_cast
    ring

/-- C2: with a positive total weighted sum, the Gini sorts the (value,
weight) pairs by value ascending, forms the prefix sums `W` and `X`, and
returns `(Σ (X_{k+1}·W_k - X_k·W_{k+1})) / (X_n·W_n)` (with `X_n`, `W_n`
the full totals); without weights it returns
`(n + 1 - 2·Σ(cumulative sorted values)/total)/n`; and the two coincide
when every weight is one. -/
theorem C2_gini_formula (a ws : List ℝ) (ha : a ≠ []) (hw : ws.length = a.length)
    (h0 : ∀ x ∈ ws, 0 ≤ x)
    (hpos : 0 < ((a.zip ws).map (fun p => p.1 * p.2)).sum) :
    gini a (some ws) = some (giniNumAux
        (cumsum ((sortPairs (a.zip ws)).map (fun p => p.1 * p.2)))
        (cumsum ((sortPairs (a.zip ws)).map (fun p => p.2))) /
      (((a.zip ws).map (fun p => p.1 * p.2)).sum * ws.sum)) ∧
    (0 < a.sum → gini a none = some (((a.length : ℝ) + 1 -
      2 * (cumsum (a.insertionSort (· ≤ ·))).sum / a.sum) / (a.length : ℝ))) ∧
    ((∀ x ∈ ws, x = 1) → gini a (some ws) = gini a none) := by
  have hW : 0 < ws.sum := wsum_pos_of_wxsum_pos a ws hw h0 hpos
  have hn : (a.length : ℝ) ≠ 0 := by
    simp only [ne_eq, Nat.cast_eq_zero, List.length_eq_zero]
    exact ha
  have hperm : (sortPairs (a.zip ws)).Perm (a.zip ws) := List.perm_insertionSort pairLe _
  have hxw : ((sortPairs (a.zip ws)).map (fun p => p.1 * p.2)).sum =
      ((a.zip ws).map (fun p => p.1 * p.2)).sum := (hperm.map _).sum_eq
  have hwsum : ((sortPairs (a.zip ws)).map (fun p => p.2)).sum = ws.sum := by
    rw [(hperm.map (fun p => p.2)).sum_eq]
    show (List.map Prod.snd (a.zip ws)).sum = ws.sum
    rw [List.map_snd_zip a ws (le_of_eq hw)]
  refine ⟨?_, ?_, ?_⟩
  · simp only [gini, cumsum_getLastD, hxw, hwsum]
    rw [if_neg (mul_ne_zero hpos.ne' hW.ne')]
  · intro hu
    have hsum : (a.insertionSort (· ≤ ·)).sum = a.sum := (List.perm_insertionSort _ a).sum_eq
    simp only [gini, cumsum_getLastD, hsum]
    rw [if_neg (by push_neg; exact ⟨hn, hu.ne'⟩)]
  · intro h1
    have hz : a.zip ws = a.map (fun x => (x, 1)) := zip_ones a ws hw h1
    have hTa : ((a.zip ws).map (fun p => p.1 * p.2)).sum = a.sum := by
      rw [hz, List.map_map]
      have he : ∀ x ∈ a, ((fun p : ℝ × ℝ => p.1 * p.2) ∘ fun x => (x, (1 : ℝ))) x = x := by
        intro x _
        simp
      rw [List.map_congr_left he, List.map_id']
    have hN : ws.sum = (a.length : ℝ) := by rw [sum_ones ws h1, hw]
    have hTpos : 0 < a.sum := by rw [← hTa]; exact hpos
    rw [gini_weighted_value a ws hw (by rw [hTa]; exact hTpos.ne') hW.ne',
      gini_unweighted_value a ha hTpos.ne', hTa, hN, hz,
      show a.sum * (a.length : ℝ) = (a.length : ℝ) * a.sum by ring]

/-- Closed witness for C2 at `a = [1, 2]`, `ws = [1, 1]`. -/
theorem C2_gini_formula_witness :
    ([1, 2] : List ℝ) ≠ [] ∧ ([1, 1] : List ℝ).length = ([1, 2] : List ℝ).length ∧
    (∀ x ∈ ([1, 1] : List ℝ), 0 ≤ x) ∧
    0 < ((([1, 2] : List ℝ).zip ([1, 1] : List ℝ)).map (fun p => p.1 * p.2)).sum ∧
    (gini [1, 2] (some [1, 1]) = some (giniNumAux
        (cumsum ((sortPairs (([1, 2] : List ℝ).zip ([1, 1] : List ℝ))).map
          (fun p => p.1 * p.2)))
        (cumsum ((sortPairs (([1, 2] : List ℝ).zip ([1, 1] : List ℝ))).map (fun p => p.2))) /
      (((([1, 2] : List ℝ).zip ([1, 1] : List ℝ)).map (fun p => p.1 * p.2)).sum *
        ([1, 1] : List ℝ).sum)) ∧
    (0 < ([1, 2] : List ℝ).sum → gini [1, 2] none =
      some (((([1, 2] : List ℝ).length : ℝ) + 1 -
        2 * (cumsum (([1, 2] : List ℝ).insertionSort (· ≤ ·))).sum / ([1, 2] : List ℝ).sum) /
          (([1, 2] : List ℝ).length : ℝ))) ∧
    ((∀ x ∈ ([1, 1] : List ℝ), x = 1) →
      gini [1, 2] (some [1, 1]) = gini [1, 2] none)) :=
  ⟨by simp, by simp,
    by
      intro x hx
      simp only [List.mem_cons, List.not_mem_nil, or_false] at hx
      rcases hx with h | h <;> rw [h] <;> norm_num,
    by norm_num [List.zip_cons_cons],
    C2_gini_formula [1, 2] [1, 1] (by simp) (by simp)
      (by
        intro x hx
        simp only [List.mem_cons, List.not_mem_nil, or_false] at hx
        rcases hx with h | h <;> rw [h] <;> norm_num)
      (by norm_num [List.zip_cons_cons])⟩

/-- C9 counterexample: `atkinson.ede([-1, 2, 3], epsilon = 0.5)` does not
fail: the source contains no domain validation, feeds `-1` to the power
term as-is, and returns a value (in Python a complex number, since
`(-1) ** 0.5` is complex; no `DomainError` exists anywhere in the code). -/
theorem C9_counterexample_no_domain_error :
    (atkEde [(-1 : ℝ), 2, 3] (1 / 2) none).isOk = true := by
  simp only [atkEde]
  rw [if_neg (by norm_num), if_neg (by norm_num)]
  rfl

/-- C9 (amended): `atkinson.ede` performs no domain check at all — for any
`epsilon ≠ 1` and any values whatsoever (non-positive included) it returns
a value rather than raising; and at `epsilon = 1` it fails with Python's
`ZeroDivisionError` from `1 / (1 - epsilon)` (the failure the spec
taxonomy calls `DegenerateParameterError`; no geometric-mean branch is
implemented), not with a `DomainError`.  The weighted conjuncts assume
weights of matching length, where the embedding is faithful — a
length-mismatched weights list raises `TypeError` inside `np.average` in
the source and is outside this model. -/
theorem C9_atkinson_no_domain_check (a ws : List ℝ) (ε : ℝ) (ha : a ≠ [])
    (hlen : ws.length = a.length) (hs : ws.sum ≠ 0) (hε : ε ≠ 1) :
    (atkEde a ε none).isOk = true ∧ (atkEde a ε (some ws)).isOk = true ∧
    atkEde a 1 none = .error .zeroDivisionError ∧
    atkEde a 1 (some ws) = .error .zeroDivisionError := by
  have hn : (a.length : ℝ) ≠ 0 := by
    simp only [ne_eq, Nat.cast_eq_zero, List.length_eq_zero]
    exact ha
  have h1ε : (1 : ℝ) - ε ≠ 0 := sub_ne_zero.mpr (Ne.symm hε)
  refine ⟨?_, ?_, ?_, ?_⟩
  · simp only [atkEde]
    rw [if_neg hn, if_neg h1ε]
    rfl
  · simp only [atkEde]
    rw [if_neg hs, if_neg h1ε]
    rfl
  · simp only [atkEde]
    rw [if_neg hn, if_pos (by norm_num)]
  · simp only [atkEde]
    rw [if_neg hs, if_pos (by norm_num)]

/-- Closed witness for C9 at `a = [-1, 2, 3]`, `ws = [1, 1, 1]`, `ε = 1/2`. -/
theorem C9_atkinson_no_domain_check_witness :
    ([(-1 : ℝ), 2, 3] : List ℝ) ≠ [] ∧
    ([1, 1, 1] : List ℝ).length = ([(-1 : ℝ), 2, 3] : List ℝ).length ∧
    ([1, 1, 1] : List ℝ).sum ≠ 0 ∧ ((1 : ℝ) / 2) ≠ 1 ∧
    ((atkEde [(-1 : ℝ), 2, 3] (1 / 2) none).isOk = true ∧
    (atkEde [(-1 : ℝ), 2, 3] (1 / 2) (some [1, 1, 1])).isOk = true ∧
    atkEde [(-1 : ℝ), 2, 3] 1 none = .error .zeroDivisionError ∧
    atkEde [(-1 : ℝ), 2, 3] 1 (some [1, 1, 1]) = .error .zeroDivisionError) :=
  ⟨by simp, by simp, by norm_num, by norm_num,
    C9_atkinson_no_domain_check [(-1 : ℝ), 2, 3] [1, 1, 1] (1 / 2) (by simp) (by simp)
      (by norm_num) (by norm_num)⟩

/-- Entries of a list of non-negative reals read through `getD` with default
zero are non-negative. -/
theorem getD_nonneg (ws : List ℝ) (h0 : ∀ x ∈ ws, 0 ≤ x) (i : ℕ) : 0 ≤ ws.getD i 0 := by
  by_cases hi : i < ws.length
  · rw [List.getD_eq_getElem ws 0 hi]
    exact h0 _ (List.getElem_mem hi)
  · rw [List.getD_eq_default ws 0 (le_of_not_lt hi)]

/-- A positive total weight guarantees some position with positive weight. -/
theorem exists_pos_weight (a ws : List ℝ) (hw : ws.length = a.length) (hs : 0 < ws.sum) :
    ∃ j ∈ Finset.range a.length, 0 < ws.getD j 0 := by
  have h : ws.sum = ∑ i ∈ Finset.range a.length, ws.getD i 0 := by
    have h' := sum_map_getD (fun x => x) ws
    rw [List.map_id'] at h'
    rw [h', hw]
  rw [h] at hs
  by_contra hc
  push_neg at hc
  exact absurd (Finset.sum_nonpos hc) (not_le.mpr hs)

/-- The weighted exponential sum of the Kolm-Pollak EDE is positive for
valid weights. -/
theorem kp_sum_pos_weighted (a ws : List ℝ) (k : ℝ) (hw : ws.length = a.length)
    (h0 : ∀ x ∈ ws, 0 ≤ x) (hs : 0 < ws.sum) :
    0 < ((a.zip ws).map (fun p => Real.exp (p.1 * -k) * p.2)).sum := by
  rw [sum_zip_getD (fun x w => Real.exp (x * -k) * w) a ws hw]
  obtain ⟨j, hj, hjpos⟩ := exists_pos_weight a ws hw hs
  refine Finset.sum_pos' (fun i _ => mul_nonneg (Real.exp_pos _).le (getD_nonneg ws h0 i))
    ⟨j, hj, mul_pos (Real.exp_pos _) hjpos⟩

/-- The unweighted exponential sum of the Kolm-Pollak EDE is positive for a
non-empty list. -/
theorem kp_sum_pos_unweighted (a : List ℝ) (k : ℝ) (ha : a ≠ []) :
    0 < (a.map (fun x => Real.exp (x * -k))).sum := by
  refine List.sum_pos _ ?_ (by simpa using ha)
  intro y hy
  obtain ⟨x, _, rfl⟩ := List.mem_map.mp hy
  exact Real.exp_pos _

/-- Shifting every value down by `m` multiplies the weighted exponential sum
by `exp(m·k)`, hence shifts the weighted Kolm-Pollak EDE down by `m`. -/
theorem kpEdeVal_shift_weighted (a ws : List ℝ) (k m : ℝ) (hk : k ≠ 0)
    (hw : ws.length = a.length) (h0 : ∀ x ∈ ws, 0 ≤ x) (hs : 0 < ws.sum) :
    kpEdeVal k (a.map (fun x => x - m)) (some ws) = kpEdeVal k a (some ws) - m := by
  have hzip : ((a.map (fun x => x - m)).zip ws).map (fun p => Real.exp (p.1 * -k) * p.2) =
      (a.zip ws).map (fun p => Real.exp (p.1 * -k) * p.2 * Real.exp (m * k)) := by
    rw [List.zip_map_left, List.map_map]
    refine List.map_congr_left ?_
    intro p _
    simp only [Function.comp, Prod.map, id]
    rw [show (p.1 - m) * -k = p.1 * -k + m * k by ring, Real.exp_add]
    ring
  have hS : 0 < ((a.zip ws).map (fun p => Real.exp (p.1 * -k) * p.2)).sum :=
    kp_sum_pos_weighted a ws k hw h0 hs
  simp only [kpEdeVal]
  rw [hzip, List.sum_map_mul_right]
  rw [show ((a.zip ws).map (fun p => Real.exp (p.1 * -k) * p.2)).sum * Real.exp (m * k) /
      ws.sum = ((a.zip ws).map (fun p => Real.exp (p.1 * -k) * p.2)).sum / ws.sum *
      Real.exp (m * k) by ring]
  rw [Real.log_mul (div_pos hS hs).ne' (Real.exp_ne_zero _), Real.log_exp]
  field_simp
  ring

/-- Shifting every value down by `m` shifts the unweighted Kolm-Pollak EDE
down by `m`. -/
theorem kpEdeVal_shift_unweighted (a : List ℝ) (k m : ℝ) (hk : k ≠ 0) (ha : a ≠ []) :
    kpEdeVal k (a.map (fun x => x - m)) none = kpEdeVal k a none - m := by
  have hmap : (a.map (fun x => x - m)).map (fun x => Real.exp (x * -k)) =
      a.map (fun x => Real.exp (x * -k) * Real.exp (m * k)) := by
    rw [List.map_map]
    refine List.map_congr_left ?_
    intro x _
    simp only [Function.comp]
    rw [show (x - m) * -k = x * -k + m * k by ring, Real.exp_add]
  have hS : 0 < (a.map (fun x => Real.exp (x * -k))).sum := kp_sum_pos_unweighted a k ha
  have hn : (0 : ℝ) < (a.length : ℝ) := by
    rw [Nat.cast_pos, List.length_pos]
    exact ha
  simp only [kpEdeVal, List.length_map]
  rw [hmap, List.sum_map_mul_right]
  rw [show (a.map (fun x => Real.exp (x * -k))).sum * Real.exp (m * k) / (a.length : ℝ) =
      (a.map (fun x => Real.exp (x * -k))).sum / (a.length : ℝ) * Real.exp (m * k) by ring]
  rw [Real.log_mul (div_pos hS hn).ne' (Real.exp_ne_zero _), Real.log_exp]
  field_simp
  ring

/-- C10: with `kappa` supplied directly (and valid weights), the Kolm-Pollak
index equals the Kolm-Pollak EDE minus the (weighted) mean: subtracting the
mean before taking the EDE is the same as subtracting it after. -/
theorem C10_kp_index_translation (a ws : List ℝ) (k : ℝ) (ha : a ≠ []) (hk : k ≠ 0)
    (hw : ws.length = a.length) (h0 : ∀ x ∈ ws, 0 ≤ x) (hs : 0 < ws.sum) :
    kpIndex a none (some k) (some ws) =
      (kpEde a none (some k) (some ws)).map (fun r => r - npAverage a (some ws)) ∧
    kpIndex a none (some k) none =
      (kpEde a none (some k) none).map (fun r => r - npMean a) := by
  constructor
  · simp only [kpIndex]
    rw [if_neg hs.ne']
    simp only [kpEde, Except.map]
    rw [kpEdeVal_shift_weighted a ws k (npAverage a (some ws)) hk hw h0 hs]
  · simp only [kpIndex, kpEde, Except.map]
    rw [kpEdeVal_shift_unweighted a k (npMean a) hk ha]

/-- Closed witness for C10 at `a = [1, 2]`, `ws = [1, 1]`, `k = 1`. -/
theorem C10_kp_index_translation_witness :
    ([1, 2] : List ℝ) ≠ [] ∧ (1 : ℝ) ≠ 0 ∧
    ([1, 1] : List ℝ).length = ([1, 2] : List ℝ).length ∧
    (∀ x ∈ ([1, 1] : List ℝ), 0 ≤ x) ∧ 0 < ([1, 1] : List ℝ).sum ∧
    (kpIndex [1, 2] none (some 1) (some [1, 1]) =
      (kpEde [1, 2] none (some 1) (some [1, 1])).map
        (fun r => r - npAverage [1, 2] (some [1, 1])) ∧
    kpIndex [1, 2] none (some 1) none =
      (kpEde [1, 2] none (some 1) none).map (fun r => r - npMean [1, 2])) :=
  ⟨by simp, by norm_num, by simp,
    by
      intro x hx
      simp only [List.mem_cons, List.not_mem_nil, or_false] at hx
      rcases hx with h | h <;> rw [h] <;> norm_num,
    by norm_num,
    C10_kp_index_translation [1, 2] [1, 1] 1 (by simp) (by norm_num) (by simp)
      (by
        intro x hx
        simp only [List.mem_cons, List.not_mem_nil, or_false] at hx
        rcases hx with h | h <;> rw [h] <;> norm_num)
      (by norm_num)⟩

/-- Mapping commutes with multiset expansion. -/
theorem expand_map (g : ℝ → ℝ) : ∀ (a : List ℝ) (v : List ℕ),
    (expand a v).map g = expand (a.map g) v
  | [], v => by cases v <;> simp [expand]
  | _ :: _, [] => by simp [expand]
  | x :: a, n :: v => by
    simp only [expand, List.map_append, List.map_replicate, List.map_cons]
    rw [expand_map g a v]

/-- A mapped sum over the expanded multiset is the weighted mapped sum with
the integer weights cast to ℝ. -/
theorem expand_sum (f : ℝ → ℝ) : ∀ (a : List ℝ) (v : List ℕ), v.length = a.length →
    ((expand a v).map f).sum =
      ((a.zip (v.map (Nat.cast : ℕ → ℝ))).map (fun p => f p.1 * p.2)).sum
  | [], [], _ => by simp [expand]
  | [], _ :: _, h => by simp at h
  | _ :: _, [], h => by simp at h
  | x :: a, n :: v, h => by
    simp only [expand, List.map_append, List.sum_append, List.map_replicate,
      List.sum_replicate, List.map_cons, List.zip_cons_cons, List.sum_cons]
    rw [expand_sum f a v (by simpa using h), nsmul_eq_mul]
    ring

/-- The expanded multiset has as many elements as the weights total. -/
theorem expand_length : ∀ (a : List ℝ) (v : List ℕ), v.length = a.length →
    (expand a v).length = v.sum
  | [], [], _ => rfl
  | [], _ :: _, h => by simp at h
  | _ :: _, [], h => by simp at h
  | x :: a, n :: v, h => by
    simp only [expand, List.length_append, List.length_replicate, List.sum_cons]
    rw [expand_length a v (by simpa using h)]

/-- The Kolm-Pollak EDE arithmetic is invariant under expansion. -/
theorem kpEdeVal_expand (k : ℝ) (a : List ℝ) (v : List ℕ) (h : v.length = a.length) :
    kpEdeVal k (expand a v) none = kpEdeVal k a (some (v.map Nat.cast)) := by
  simp only [kpEdeVal]
  rw [expand_sum (fun x => Real.exp (x * -k)) a v h, expand_length a v h, Nat.cast_list_sum]

/-- The kappa calibration is invariant under expansion. -/
theorem calc_kappa_expand (e : ℝ) (a : List ℝ) (v : List ℕ) (h : v.length = a.length) :
    calc_kappa (expand a v) e none = calc_kappa a e (some (v.map Nat.cast)) := by
  simp only [calc_kappa]
  rw [show (expand a v).sum = ((expand a v).map (fun x => x)).sum by rw [List.map_id'],
    expand_sum (fun x => x) a v h, expand_sum (fun x => x ^ 2) a v h]

/-- The Kolm-Pollak EDE (both parameter modes, errors included) is invariant
under expansion. -/
theorem kpEde_expand (a : List ℝ) (v : List ℕ) (epsOpt kapOpt : Option ℝ)
    (h : v.length = a.length) :
    kpEde (expand a v) epsOpt kapOpt none = kpEde a epsOpt kapOpt (some (v.map Nat.cast)) := by
  cases kapOpt with
  | some k =>
    simp only [kpEde]
    rw [kpEdeVal_expand k a v h]
  | none =>
    cases epsOpt with
    | none => rfl
    | some e =>
      simp only [kpEde]
      rw [calc_kappa_expand e a v h, kpEdeVal_expand _ a v h]

/-- The unweighted mean of the expanded multiset is the weighted mean. -/
theorem mean_expand (a : List ℝ) (v : List ℕ) (h : v.length = a.length) :
    npMean (expand a v) = npAverage a (some (v.map Nat.cast)) := by
  simp only [npMean, npAverage]
  rw [show (expand a v).sum = ((expand a v).map (fun x => x)).sum by rw [List.map_id'],
    expand_sum (fun x => x) a v h, expand_length a v h, Nat.cast_list_sum]

/-- The Kolm-Pollak index is invariant under expansion (positive integer
weights keep the weight total non-zero). -/
theorem kpIndex_expand (a : List ℝ) (v : List ℕ) (epsOpt kapOpt : Option ℝ)
    (h : v.length = a.length) (hv : 0 < v.sum) :
    kpIndex (expand a v) epsOpt kapOpt none =
      kpIndex a epsOpt kapOpt (some (v.map Nat.cast)) := by
  have hws : (v.map (Nat.cast : ℕ → ℝ)).sum ≠ 0 := by
    rw [← Nat.cast_list_sum]
    exact_mod_cast hv.ne'
  simp only [kpIndex]
  rw [if_neg hws, mean_expand a v h,
    expand_map (fun x => x - npAverage a (some (v.map Nat.cast))) a v]
  exact kpEde_expand _ v epsOpt kapOpt (by rw [List.length_map]; exact h)

/-- The Atkinson EDE (error branches included) is invariant under
expansion. -/
theorem atkEde_expand (a : List ℝ) (v : List ℕ) (ε : ℝ) (h : v.length = a.length) :
    atkEde (expand a v) ε none = atkEde a ε (some (v.map Nat.cast)) := by
  simp only [atkEde]
  rw [expand_sum (fun x => x ^ ((1 : ℝ) - ε)) a v h, expand_length a v h, Nat.cast_list_sum]

/-- The Atkinson index is invariant under expansion. -/
theorem atkIndex_expand (a : List ℝ) (v : List ℕ) (ε : ℝ) (h : v.length = a.length) :
    atkIndex (expand a v) ε none = atkIndex a ε (some (v.map Nat.cast)) := by
  simp only [atkIndex]
  rw [atkEde_expand a v ε h, show npAverage (expand a v) none = npMean (expand a v) from rfl,
    mean_expand a v h]

/-- Inner absolute sums agree between the unit-weighted expanded multiset
and the (value, weight) pair list. -/
theorem inner_abs_expand (a : List ℝ) (v : List ℕ) (h : v.length = a.length) (p : ℝ × ℝ) :
    innerAbs ((expand a v).map (fun x => (x, 1))) p =
      innerAbs (a.zip (v.map Nat.cast)) p := by
  simp only [innerAbs]
  rw [List.map_map, show ((fun q : ℝ × ℝ => p.2 * q.2 * |p.1 - q.1|) ∘ fun x : ℝ => (x, 1)) =
      fun x : ℝ => p.2 * 1 * |p.1 - x| from funext (fun x => rfl),
    expand_sum (fun x => p.2 * 1 * |p.1 - x|) a v h]
  refine congrArg List.sum (List.map_congr_left ?_)
  intro q _
  ring

/-- The symmetric absolute double sum agrees between the unit-weighted
expanded multiset and the (value, weight) pair list. -/
theorem absPairSum_expand (a : List ℝ) (v : List ℕ) (h : v.length = a.length) :
    absPairSum ((expand a v).map (fun x => (x, 1))) =
      absPairSum (a.zip (v.map Nat.cast)) := by
  simp only [absPairSum]
  rw [List.map_congr_left (fun p _ => inner_abs_expand a v h p), List.map_map,
    show (innerAbs (a.zip (v.map Nat.cast)) ∘ fun x : ℝ => (x, 1)) =
      fun x : ℝ => innerAbs (a.zip (v.map Nat.cast)) (x, 1) from funext (fun x => rfl),
    expand_sum (fun x => innerAbs (a.zip (v.map Nat.cast)) (x, 1)) a v h]
  refine congrArg List.sum (List.map_congr_left ?_)
  intro q _
  simp only [innerAbs]
  rw [← List.sum_map_mul_right]
  refine congrArg List.sum (List.map_congr_left ?_)
  intro r _
  ring

/-- The Gini total of the expanded multiset is the total weighted value. -/
theorem expand_total (a : List ℝ) (v : List ℕ) (h : v.length = a.length) :
    ((a.zip (v.map (Nat.cast : ℕ → ℝ))).map (fun p => p.1 * p.2)).sum = (expand a v).sum := by
  rw [show (expand a v).sum = ((expand a v).map (fun x => x)).sum by rw [List.map_id'],
    expand_sum (fun x => x) a v h]

/-- The Gini index is invariant under expansion: the unweighted Gini of the
expanded multiset equals the weighted Gini (and the silent-NaN conditions
coincide as well). -/
theorem gini_expand (a : List ℝ) (v : List ℕ) (ha : a ≠ []) (h : v.length = a.length)
    (hpos : ∀ n ∈ v, 0 < n) :
    gini (expand a v) none = gini a (some (v.map Nat.cast)) := by
  have hvne : v ≠ [] := by
    intro hnil
    rw [hnil] at h
    exact ha (List.length_eq_zero.mp h.symm)
  have hv : 0 < v.sum := List.sum_pos v hpos hvne
  have hwsum : (v.map (Nat.cast : ℕ → ℝ)).sum = (v.sum : ℝ) := (Nat.cast_list_sum v).symm
  have hwpos : 0 < (v.map (Nat.cast : ℕ → ℝ)).sum := by
    rw [hwsum]
    exact_mod_cast hv
  have hwlen : (v.map (Nat.cast : ℕ → ℝ)).length = a.length := by
    rw [List.length_map]
    exact h
  have hT := expand_total a v h
  by_cases hT0 : ((a.zip (v.map (Nat.cast : ℕ → ℝ))).map (fun p => p.1 * p.2)).sum = 0
  · rw [gini_unweighted_none (expand a v) (by rw [← hT]; exact hT0),
      gini_weighted_none a (v.map Nat.cast) hT0]
  · have hsumne : (expand a v).sum ≠ 0 := by
      rw [← hT]
      exact hT0
    have hexne : expand a v ≠ [] := by
      refine List.length_pos.mp ?_
      rw [expand_length a v h]
      exact hv
    rw [gini_unweighted_value (expand a v) hexne hsumne,
      gini_weighted_value a (v.map Nat.cast) hwlen hT0 hwpos.ne',
      absPairSum_expand a v h]
    congr 1
    rw [expand_length a v h, Nat.cast_list_sum, ← hT,
      show (v.map (Nat.cast : ℕ → ℝ)).sum *
          ((a.zip (v.map (Nat.cast : ℕ → ℝ))).map (fun p => p.1 * p.2)).sum =
        ((a.zip (v.map (Nat.cast : ℕ → ℝ))).map (fun p => p.1 * p.2)).sum *
          (v.map (Nat.cast : ℕ → ℝ)).sum from mul_comm _ _]

/-- C4: with positive integer weights, the weighted computation equals the
unweighted computation on the expanded multiset — for the Kolm-Pollak
EDE and index (with any epsilon/kappa option pair), the Atkinson EDE and
index, and the Gini index. -/
theorem C4_weighted_unweighted_equivalence (a : List ℝ) (v : List ℕ)
    (epsOpt kapOpt : Option ℝ) (ε : ℝ) (ha : a ≠ []) (h : v.length = a.length)
    (hpos : ∀ n ∈ v, 0 < n) :
    kpEde (expand a v) epsOpt kapOpt none = kpEde a epsOpt kapOpt (some (v.map Nat.cast)) ∧
    kpIndex (expand a v) epsOpt kapOpt none =
      kpIndex a epsOpt kapOpt (some (v.map Nat.cast)) ∧
    atkEde (expand a v) ε none = atkEde a ε (some (v.map Nat.cast)) ∧
    atkIndex (expand a v) ε none = atkIndex a ε (some (v.map Nat.cast)) ∧
    gini (expand a v) none = gini a (some (v.map Nat.cast)) := by
  have hvne : v ≠ [] := by
    intro hnil
    rw [hnil] at h
    exact ha (List.length_eq_zero.mp h.symm)
  have hv : 0 < v.sum := List.sum_pos v hpos hvne
  exact ⟨kpEde_expand a v epsOpt kapOpt h, kpIndex_expand a v epsOpt kapOpt h hv,
    atkEde_expand a v ε h, atkIndex_expand a v ε h, gini_expand a v ha h hpos⟩

/-- Closed witness for C4 at `a = [1, 2]`, `v = [1, 2]`, `kappa = 1`,
`ε = 1/2`. -/
theorem C4_weighted_unweighted_equivalence_witness :
    ([1, 2] : List ℝ) ≠ [] ∧ ([1, 2] : List ℕ).length = ([1, 2] : List ℝ).length ∧
    (∀ n ∈ ([1, 2] : List ℕ), 0 < n) ∧
    (kpEde (expand [1, 2] [1, 2]) none (some 1) none =
      kpEde [1, 2] none (some 1) (some (([1, 2] : List ℕ).map Nat.cast)) ∧
    kpIndex (expand [1, 2] [1, 2]) none (some 1) none =
      kpIndex [1, 2] none (some 1) (some (([1, 2] : List ℕ).map Nat.cast)) ∧
    atkEde (expand [1, 2] [1, 2]) (1 / 2) none =
      atkEde [1, 2] (1 / 2) (some (([1, 2] : List ℕ).map Nat.cast)) ∧
    atkIndex (expand [1, 2] [1, 2]) (1 / 2) none =
      atkIndex [1, 2] (1 / 2) (some (([1, 2] : List ℕ).map Nat.cast)) ∧
    gini (expand [1, 2] [1, 2]) none =
      gini [1, 2] (some (([1, 2] : List ℕ).map Nat.cast))) :=
  ⟨by simp, by simp, by decide,
    C4_weighted_unweighted_equivalence [1, 2] [1, 2] none (some 1) (1 / 2) (by simp)
      (by simp) (by decide)⟩

/-- Zipping a constant list against weights pairs the constant with each
weight. -/
theorem replicate_zip : ∀ (n : ℕ) (c : ℝ) (ws : List ℝ), ws.length = n →
    (List.replicate n c).zip ws = ws.map (fun w => (c, w))
  | 0, _, [], _ => rfl
  | 0, _, _ :: _, h => by simp at h
  | _ + 1, _, [], h => by simp at h
  | n + 1, c, w :: ws, h => by
    rw [List.replicate_succ, List.zip_cons_cons, replicate_zip n c ws (by simpa using h),
      List.map_cons]

/-- The weighted Kolm-Pollak EDE of a constant distribution is the
constant. -/
theorem kpEdeVal_replicate_weighted (n : ℕ) (c k : ℝ) (ws : List ℝ) (hk : k ≠ 0)
    (hlen : ws.length = n) (hs : ws.sum ≠ 0) :
    kpEdeVal k (List.replicate n c) (some ws) = c := by
  simp only [kpEdeVal]
  rw [replicate_zip n c ws hlen, List.map_map,
    show ((fun p : ℝ × ℝ => Real.exp (p.1 * -k) * p.2) ∘ fun w : ℝ => (c, w)) =
      fun w : ℝ => Real.exp (c * -k) * w from funext (fun w => rfl),
    List.sum_map_mul_left]
  simp only [List.map_id']
  rw [mul_div_assoc, div_self hs, mul_one, Real.log_exp]
  field_simp

/-- The unweighted Kolm-Pollak EDE of a constant distribution is the
constant. -/
theorem kpEdeVal_replicate_unweighted (n : ℕ) (c k : ℝ) (hk : k ≠ 0) (hn : 0 < n) :
    kpEdeVal k (List.replicate n c) none = c := by
  have hn' : (n : ℝ) ≠ 0 := Nat.cast_ne_zero.mpr hn.ne'
  simp only [kpEdeVal, List.map_replicate, List.sum_replicate, List.length_replicate,
    nsmul_eq_mul]
  rw [mul_comm ((n : ℝ)) (Real.exp (c * -k)), mul_div_assoc, div_self hn', mul_one,
    Real.log_exp]
  field_simp

/-- Weighted kappa calibration on a constant distribution yields
`epsilon / c`. -/
theorem calc_kappa_replicate_weighted (n : ℕ) (c e : ℝ) (ws : List ℝ)
    (hlen : ws.length = n) (hc : c ≠ 0) (hs : ws.sum ≠ 0) :
    calc_kappa (List.replicate n c) e (some ws) = e / c := by
  simp only [calc_kappa]
  rw [replicate_zip n c ws hlen, List.map_map, List.map_map,
    show ((fun p : ℝ × ℝ => p.1 * p.2) ∘ fun w : ℝ => (c, w)) = fun w : ℝ => c * w from
      funext (fun w => rfl),
    show ((fun p : ℝ × ℝ => p.1 ^ 2 * p.2) ∘ fun w : ℝ => (c, w)) =
      fun w : ℝ => c ^ 2 * w from funext (fun w => rfl),
    List.sum_map_mul_left, List.sum_map_mul_left]
  simp only [List.map_id']
  field_simp
  ring

/-- Unweighted kappa calibration on a constant distribution yields
`epsilon / c`. -/
theorem calc_kappa_replicate_unweighted (n : ℕ) (c e : ℝ) (hn : 0 < n) (hc : c ≠ 0) :
    calc_kappa (List.replicate n c) e none = e / c := by
  have hn' : (n : ℝ) ≠ 0 := Nat.cast_ne_zero.mpr hn.ne'
  simp only [calc_kappa, List.map_replicate, List.sum_replicate, nsmul_eq_mul]
  field_simp
  ring

/-- The weighted mean of a constant distribution is the constant. -/
theorem npAverage_replicate_weighted (n : ℕ) (c : ℝ) (ws : List ℝ) (hlen : ws.length = n)
    (hs : ws.sum ≠ 0) : npAverage (List.replicate n c) (some ws) = c := by
  simp only [npAverage]
  rw [replicate_zip n c ws hlen, List.map_map,
    show ((fun p : ℝ × ℝ => p.1 * p.2) ∘ fun w : ℝ => (c, w)) = fun w : ℝ => c * w from
      funext (fun w => rfl),
    List.sum_map_mul_left]
  simp only [List.map_id']
  rw [mul_div_assoc, div_self hs, mul_one]

/-- The unweighted mean of a constant distribution is the constant. -/
theorem npMean_replicate (n : ℕ) (c : ℝ) (hn : 0 < n) :
    npMean (List.replicate n c) = c := by
  have hn' : (n : ℝ) ≠ 0 := Nat.cast_ne_zero.mpr hn.ne'
  rw [npMean, List.sum_replicate, nsmul_eq_mul, List.length_replicate, mul_comm,
    mul_div_assoc, div_self hn', mul_one]

/-- Centering a constant distribution yields the all-zero distribution. -/
theorem replicate_center (n : ℕ) (c : ℝ) :
    (List.replicate n c).map (fun x => x - c) = List.replicate n 0 := by
  rw [List.map_replicate, sub_self]

/-- The symmetric absolute double sum vanishes when all values agree. -/
theorem absPairSum_const (c : ℝ) (l : List (ℝ × ℝ)) (h : ∀ p ∈ l, p.1 = c) :
    absPairSum l = 0 := by
  have hrow : ∀ p ∈ l, innerAbs l p = 0 := by
    intro p hp
    rw [innerAbs]
    have hterm : ∀ q ∈ l, p.2 * q.2 * |p.1 - q.1| = 0 := by
      intro q hq
      rw [h p hp, h q hq, sub_self, abs_zero, mul_zero]
    rw [List.map_congr_left hterm]
    simp
  rw [absPairSum, List.map_congr_left hrow]
  simp

/-- The weighted Gini of a constant non-zero distribution is zero. -/
theorem gini_replicate_weighted (n : ℕ) (c : ℝ) (ws : List ℝ) (hlen : ws.length = n)
    (hc : c ≠ 0) (hs : ws.sum ≠ 0) : gini (List.replicate n c) (some ws) = some 0 := by
  have hwlen : ws.length = (List.replicate n c).length := by
    rw [List.length_replicate]
    exact hlen
  have hT : (((List.replicate n c).zip ws).map (fun p => p.1 * p.2)).sum = c * ws.sum := by
    rw [replicate_zip n c ws hlen, List.map_map,
      show ((fun p : ℝ × ℝ => p.1 * p.2) ∘ fun w : ℝ => (c, w)) = fun w : ℝ => c * w from
        funext (fun w => rfl),
      List.sum_map_mul_left]
    simp only [List.map_id']
  have hconst : ∀ p ∈ (List.replicate n c).zip ws, p.1 = c := by
    intro p hp
    obtain ⟨x, w⟩ := p
    obtain ⟨h1, _⟩ := List.of_mem_zip hp
    exact List.eq_of_mem_replicate h1
  rw [gini_weighted_value (List.replicate n c) ws hwlen
    (by rw [hT]; exact mul_ne_zero hc hs) hs, absPairSum_const c _ hconst, zero_div]

/-- The unweighted Gini of a constant non-zero distribution is zero. -/
theorem gini_replicate_unweighted (n : ℕ) (c : ℝ) (hn : 0 < n) (hc : c ≠ 0) :
    gini (List.replicate n c) none = some 0 := by
  have hne : List.replicate n c ≠ [] := by
    refine List.length_pos.mp ?_
    rw [List.length_replicate]
    exact hn
  have hsne : (List.replicate n c).sum ≠ 0 := by
    rw [List.sum_replicate, nsmul_eq_mul]
    exact mul_ne_zero (Nat.cast_ne_zero.mpr hn.ne') hc
  have hconst : ∀ p ∈ (List.replicate n c).map (fun x => (x, (1 : ℝ))), p.1 = c := by
    intro p hp
    obtain ⟨x, hx, rfl⟩ := List.mem_map.mp hp
    exact List.eq_of_mem_replicate hx
  rw [gini_unweighted_value _ hne hsne, absPairSum_const c _ hconst, zero_div]

/-- The weighted Atkinson EDE of a positive constant distribution is the
constant. -/
theorem atkEde_replicate_weighted (n : ℕ) (c ε : ℝ) (ws : List ℝ) (hlen : ws.length = n)
    (hc : 0 < c) (hε : ε ≠ 1) (hs : ws.sum ≠ 0) :
    atkEde (List.replicate n c) ε (some ws) = .ok c := by
  have h1ε : (1 : ℝ) - ε ≠ 0 := sub_ne_zero.mpr (Ne.symm hε)
  simp only [atkEde]
  rw [if_neg hs, if_neg h1ε]
  congr 1
  rw [replicate_zip n c ws hlen, List.map_map,
    show ((fun p : ℝ × ℝ => p.1 ^ ((1 : ℝ) - ε) * p.2) ∘ fun w : ℝ => (c, w)) =
      fun w : ℝ => c ^ ((1 : ℝ) - ε) * w from funext (fun w => rfl),
    List.sum_map_mul_left]
  simp only [List.map_id']
  rw [mul_div_assoc, div_self hs, mul_one, ← Real.rpow_mul hc.le,
    mul_one_div_cancel h1ε, Real.rpow_one]

/-- The unweighted Atkinson EDE of a positive constant distribution is the
constant. -/
theorem atkEde_replicate_unweighted (n : ℕ) (c ε : ℝ) (hn : 0 < n) (hc : 0 < c)
    (hε : ε ≠ 1) : atkEde (List.replicate n c) ε none = .ok c := by
  have hn' : (n : ℝ) ≠ 0 := Nat.cast_ne_zero.mpr hn.ne'
  have h1ε : (1 : ℝ) - ε ≠ 0 := sub_ne_zero.mpr (Ne.symm hε)
  simp only [atkEde, List.length_replicate]
  rw [if_neg hn', if_neg h1ε]
  congr 1
  rw [List.map_replicate, List.sum_replicate, nsmul_eq_mul,
    mul_comm ((n : ℝ)) (c ^ ((1 : ℝ) - ε)), mul_div_assoc, div_self hn', mul_one,
    ← Real.rpow_mul hc.le, mul_one_div_cancel h1ε, Real.rpow_one]

/-- C6: on a constant distribution (with valid weights) the EDE is the
constant and the index is zero in all three families, for every aversion
parameter in the domain of the corresponding formula: any `kappa ≠ 0`
(and, for the Kolm-Pollak EDE epsilon path, any `epsilon ≠ 0` with
`c ≠ 0`, under which the calibrated kappa `epsilon/c` is non-zero); any
`epsilon ≠ 1` with `c > 0` for Atkinson; and `c ≠ 0` for Gini. -/
theorem C6_constant_distribution (n : ℕ) (c k e ε : ℝ) (ws : List ℝ)
    (hn : 0 < n) (hlen : ws.length = n) (h0 : ∀ x ∈ ws, 0 ≤ x) (hs : 0 < ws.sum) :
    (k ≠ 0 → kpEde (List.replicate n c) none (some k) (some ws) = .ok c ∧
      kpEde (List.replicate n c) none (some k) none = .ok c ∧
      kpIndex (List.replicate n c) none (some k) (some ws) = .ok 0 ∧
      kpIndex (List.replicate n c) none (some k) none = .ok 0) ∧
    (e ≠ 0 → c ≠ 0 → kpEde (List.replicate n c) (some e) none (some ws) = .ok c ∧
      kpEde (List.replicate n c) (some e) none none = .ok c) ∧
    (0 < c → ε ≠ 1 → atkEde (List.replicate n c) ε (some ws) = .ok c ∧
      atkEde (List.replicate n c) ε none = .ok c ∧
      atkIndex (List.replicate n c) ε (some ws) = .ok 0 ∧
      atkIndex (List.replicate n c) ε none = .ok 0) ∧
    (c ≠ 0 → gini (List.replicate n c) (some ws) = some 0 ∧
      gini (List.replicate n c) none = some 0) := by
  refine ⟨?_, ?_, ?_, ?_⟩
  · intro hk
    refine ⟨?_, ?_, ?_, ?_⟩
    · show Except.ok (kpEdeVal k (List.replicate n c) (some ws)) = Except.ok c
      rw [kpEdeVal_replicate_weighted n c k ws hk hlen hs.ne']
    · show Except.ok (kpEdeVal k (List.replicate n c) none) = Except.ok c
      rw [kpEdeVal_replicate_unweighted n c k hk hn]
    · simp only [kpIndex]
      rw [if_neg hs.ne', npAverage_replicate_weighted n c ws hlen hs.ne', replicate_center]
      show Except.ok (kpEdeVal k (List.replicate n 0) (some ws)) = Except.ok 0
      rw [kpEdeVal_replicate_weighted n 0 k ws hk hlen hs.ne']
    · simp only [kpIndex]
      rw [npMean_replicate n c hn, replicate_center]
      show Except.ok (kpEdeVal k (List.replicate n 0) none) = Except.ok 0
      rw [kpEdeVal_replicate_unweighted n 0 k hk hn]
  · intro he hc
    have hek : e / c ≠ 0 := div_ne_zero he hc
    constructor
    · show Except.ok (kpEdeVal (calc_kappa (List.replicate n c) e (some ws))
        (List.replicate n c) (some ws)) = Except.ok c
      rw [calc_kappa_replicate_weighted n c e ws hlen hc hs.ne',
        kpEdeVal_replicate_weighted n c (e / c) ws hek hlen hs.ne']
    · show Except.ok (kpEdeVal (calc_kappa (List.replicate n c) e none)
        (List.replicate n c) none) = Except.ok c
      rw [calc_kappa_replicate_unweighted n c e hn hc,
        kpEdeVal_replicate_unweighted n c (e / c) hek hn]
  · intro hc hε
    refine ⟨atkEde_replicate_weighted n c ε ws hlen hc hε hs.ne',
      atkEde_replicate_unweighted n c ε hn hc hε, ?_, ?_⟩
    · simp only [atkIndex]
      rw [atkEde_replicate_weighted n c ε ws hlen hc hε hs.ne']
      show Except.ok (1 - c / npAverage (List.replicate n c) (some ws)) = Except.ok 0
      rw [npAverage_replicate_weighted n c ws hlen hs.ne', div_self hc.ne', sub_self]
    · simp only [atkIndex]
      rw [atkEde_replicate_unweighted n c ε hn hc hε]
      show Except.ok (1 - c / npAverage (List.replicate n c) none) = Except.ok 0
      rw [show npAverage (List.replicate n c) none = npMean (List.replicate n c) from rfl,
        npMean_replicate n c hn, div_self hc.ne', sub_self]
  · intro hc
    exact ⟨gini_replicate_weighted n c ws hlen hc hs.ne',
      gini_replicate_unweighted n c hn hc⟩

/-- Closed witness for C6 at `n = 2`, `c = 3`, `k = 1`, `e = 1`, `ε = 1/2`,
`ws = [1, 1]`. -/
theorem C6_constant_distribution_witness :
    0 < 2 ∧ ([1, 1] : List ℝ).length = 2 ∧ (∀ x ∈ ([1, 1] : List ℝ), 0 ≤ x) ∧
    0 < ([1, 1] : List ℝ).sum ∧
    (((1 : ℝ) ≠ 0 → kpEde (List.replicate 2 (3 : ℝ)) none (some 1) (some [1, 1]) = .ok 3 ∧
      kpEde (List.replicate 2 (3 : ℝ)) none (some 1) none = .ok 3 ∧
      kpIndex (List.replicate 2 (3 : ℝ)) none (some 1) (some [1, 1]) = .ok 0 ∧
      kpIndex (List.replicate 2 (3 : ℝ)) none (some 1) none = .ok 0) ∧
    ((1 : ℝ) ≠ 0 → (3 : ℝ) ≠ 0 →
      kpEde (List.replicate 2 (3 : ℝ)) (some 1) none (some [1, 1]) = .ok 3 ∧
      kpEde (List.replicate 2 (3 : ℝ)) (some 1) none none = .ok 3) ∧
    (0 < (3 : ℝ) → (1 : ℝ) / 2 ≠ 1 →
      atkEde (List.replicate 2 (3 : ℝ)) (1 / 2) (some [1, 1]) = .ok 3 ∧
      atkEde (List.replicate 2 (3 : ℝ)) (1 / 2) none = .ok 3 ∧
      atkIndex (List.replicate 2 (3 : ℝ)) (1 / 2) (some [1, 1]) = .ok 0 ∧
      atkIndex (List.replicate 2 (3 : ℝ)) (1 / 2) none = .ok 0) ∧
    ((3 : ℝ) ≠ 0 → gini (List.replicate 2 (3 : ℝ)) (some [1, 1]) = some 0 ∧
      gini (List.replicate 2 (3 : ℝ)) none = some 0)) :=
  ⟨by norm_num, by simp, by
      intro x hx
      simp only [List.mem_cons, List.not_mem_nil, or_false] at hx
      rcases hx with h | h <;> rw [h] <;> norm_num,
    by norm_num,
    C6_constant_distribution 2 3 1 1 (1 / 2) [1, 1] (by norm_num) (by simp)
      (by
        intro x hx
        simp only [List.mem_cons, List.not_mem_nil, or_false] at hx
        rcases hx with h | h <;> rw [h] <;> norm_num)
      (by norm_num)⟩
